import Mathlib

/-!
# Symbol table verification: BST and hash-table backends

A shallow embedding of the two symbol-table backends of `lab3`
(`st_bst.c` and `st_hashtable.c`) together with proofs of the
specification's testable properties.

Modelling conventions:
* C strings are byte lists (`List Nat`); `strcmp` is the byte-wise
  three-way comparison (shorter prefix compares less), returning an
  `Ordering` that stands for the sign of the C `int` result.
* positions, table sizes and the position counter are `Int`
  (C `int`); sizes and capacities of the hash table are `Nat` where
  the C values are provably non-negative counters.
* the C `unsigned long` wrapping arithmetic of the hash accumulator is
  arithmetic modulo `2 ^ 64`.
* the hash table's bucket array is a `List` of chains; `buckets.set` /
  `buckets.getD` model the array store / load, and pointer-chain
  insertion at the head of a bucket (`entry->next = buckets[i];
  buckets[i] = entry`) is consing onto the chain list.
* the float comparison `(float)(size + 1) / capacity > 0.75` is modelled
  as the exact rational comparison `4 * (size + 1) > 3 * capacity`;
  the two coincide for every size and capacity below `2 ^ 23`, far
  beyond any state the doubling growth can reach in practice, because
  `0.75` and such quotients near it are represented exactly enough that
  rounding cannot cross the threshold.
-/

/-- C `strcmp` on byte strings, as the sign of the result: compares
byte-by-byte, a strict prefix compares less. -/
def strcmp : List Nat → List Nat → Ordering
  | [], [] => .eq
  | [], _ :: _ => .lt
  | _ :: _, [] => .gt
  | a :: as, b :: bs =>
    if a < b then .lt
    else if b < a then .gt
    else strcmp as bs

/-- The strict order on byte strings induced by `strcmp`. -/
def strlt (a b : List Nat) : Prop := strcmp a b = .lt

instance (a b : List Nat) : Decidable (strlt a b) :=
  inferInstanceAs (Decidable (strcmp a b = .lt))

namespace BST

/-- `struct BSTNode` from `st_bst.c`: a name, its position, and the two
child pointers (a null pointer is `leaf`). -/
inductive BSTNode where
  | leaf : BSTNode
  | node (name : List Nat) (position : Int) (left right : BSTNode) : BSTNode
deriving DecidableEq

/-- `SymbolTableBST` from `st_bst.c`: root pointer and size. -/
structure SymbolTableBST where
  root : BSTNode
  size : Int
deriving DecidableEq

/-- `st_create` (st_bst.c:34): empty root, size 0. -/
def st_create : SymbolTableBST := { root := .leaf, size := 0 }

/-- `create_node` (st_bst.c:42): a fresh node with empty children. -/
def create_node (name : List Nat) (position : Int) : BSTNode :=
  .node name position .leaf .leaf

/-- `insert_node` (st_bst.c:52): recursive BST insert.  The C in-out
parameters `*position` and `*found` become the second and third
components of the result. -/
def insert_node : BSTNode → List Nat → Int → BSTNode × Int × Bool
  | .leaf, name, position => (create_node name position, position, false)
  | .node n p l r, name, position =>
    match strcmp name n with
    | .lt =>
      let res := insert_node l name position
      (.node n p res.1 r, res.2)
    | .gt =>
      let res := insert_node r name position
      (.node n p l res.1, res.2)
    | .eq => (.node n p l r, p, true)

/-- `st_add` (st_bst.c:74): insert starting from `position = st->size`;
increment the size only when the name was not already present. -/
def st_add (st : SymbolTableBST) (name : List Nat) : SymbolTableBST × Int :=
  let res := insert_node st.root name st.size
  if res.2.2 then ({ root := res.1, size := st.size }, res.2.1)
  else ({ root := res.1, size := st.size + 1 }, res.2.1)

/-- `search_node` (st_bst.c:88): recursive BST lookup returning the node
pointer (`none` models NULL). -/
def search_node : BSTNode → List Nat → Option BSTNode
  | .leaf, _ => none
  | .node n p l r, name =>
    match strcmp name n with
    | .lt => search_node l name
    | .gt => search_node r name
    | .eq => some (.node n p l r)

/-- `st_search` (st_bst.c:105): the found node's position, or -1. -/
def st_search (st : SymbolTableBST) (name : List Nat) : Int :=
  match search_node st.root name with
  | some (.node _ p _ _) => p
  | _ => -1

/-- `inorder_traversal` (st_bst.c:111), as the sequence of
(name, position) pairs it visits. -/
def inorder_traversal : BSTNode → List (List Nat × Int)
  | .leaf => []
  | .node n p l r => inorder_traversal l ++ (n, p) :: inorder_traversal r

/-- The multiset of names stored in a tree, in in-order. -/
def keys (t : BSTNode) : List (List Nat) := (inorder_traversal t).map Prod.fst

/-- The binary-search-tree ordering invariant: at every node all keys of
the left subtree are strictly below the node's key and all keys of the
right subtree strictly above, in `strcmp` order. -/
def BSTInv : BSTNode → Prop
  | .leaf => True
  | .node n _ l r =>
    (∀ k ∈ keys l, strlt k n) ∧ (∀ k ∈ keys r, strlt n k) ∧ BSTInv l ∧ BSTInv r

/-- Run a sequence of `st_add` calls, keeping the final table. -/
def addAll (st : SymbolTableBST) (l : List (List Nat)) : SymbolTableBST :=
  l.foldl (fun s n => (st_add s n).1) st

/-- Run a sequence of `st_add` calls, collecting the returned positions. -/
def addPositions (st : SymbolTableBST) : List (List Nat) → List Int
  | [] => []
  | n :: rest =>
    let r := st_add st n
    r.2 :: addPositions r.1 rest

end BST

namespace HT

/-- `INITIAL_TABLE_SIZE` (st_hashtable.c:7). -/
def INITIAL_TABLE_SIZE : Nat := 10

/-- The modulus of C `unsigned long` arithmetic (64-bit). -/
def UL_MOD : Nat := 2 ^ 64

/-- `struct HTEntry` (st_hashtable.c:11) minus the `next` pointer, which
is modelled by the position of the entry in its bucket's chain list. -/
structure HTEntry where
  name : List Nat
  position : Int
deriving DecidableEq

/-- `SymbolTableHT` (st_hashtable.c:18): bucket array, capacity, live
entry count, and the monotone position counter. -/
structure SymbolTableHT where
  buckets : List (List HTEntry)
  capacity : Nat
  size : Nat
  next_position : Int
deriving DecidableEq

/-- `st_create` (st_hashtable.c:37): capacity 10, all buckets empty,
size 0, position counter 0. -/
def st_create : SymbolTableHT :=
  { buckets := List.replicate INITIAL_TABLE_SIZE []
    capacity := INITIAL_TABLE_SIZE
    size := 0
    next_position := 0 }

/-- `hash_function` (st_hashtable.c:47): djb2, written exactly as the
source computes it — `hash = ((hash << 5) + hash) + c` in wrapping
`unsigned long` arithmetic starting from 5381, then `hash % capacity`. -/
def hash_function (str : List Nat) (capacity : Nat) : Nat :=
  (str.foldl (fun hash c => (((hash <<< 5) % UL_MOD + hash) % UL_MOD + c) % UL_MOD) 5381)
    % capacity

/-- `create_entry` (st_hashtable.c:59): fresh entry, `next = NULL`. -/
def create_entry (name : List Nat) (position : Int) : HTEntry :=
  { name := name, position := position }

/-- The bucket-array store shared by `st_resize` (st_hashtable.c:84) and
`st_add` (st_hashtable.c:112): compute the entry's bucket index at the
given capacity and push the entry at the head of that chain
(`entry->next = buckets[index]; buckets[index] = entry`). -/
def pushEntry (capacity : Nat) (buckets : List (List HTEntry)) (e : HTEntry) :
    List (List HTEntry) :=
  let index := hash_function e.name capacity
  buckets.set index (e :: buckets.getD index [])

/-- All live entries of the table, in bucket order then chain order —
the traversal order of the rehash loop of `st_resize`. -/
def entries (st : SymbolTableHT) : List HTEntry := st.buckets.flatten

/-- `st_resize` (st_hashtable.c:68): double the capacity, allocate a
fresh zeroed bucket array, walk every old bucket's chain in order
re-pushing each entry at the head of its new bucket and recounting
`size` (the C code sets `size = 0` and increments once per entry moved,
which makes the new size the number of entries traversed). -/
def st_resize (st : SymbolTableHT) : SymbolTableHT :=
  let new_capacity := st.capacity * 2
  { buckets := (entries st).foldl (pushEntry new_capacity)
      (List.replicate new_capacity [])
    capacity := new_capacity
    size := (entries st).length
    next_position := st.next_position }

/-- The chain scan of `st_search` (st_hashtable.c:128): first entry of
the chain whose name compares equal, else -1. -/
def chain_search : List HTEntry → List Nat → Int
  | [], _ => -1
  | e :: rest, name =>
    if strcmp e.name name = .eq then e.position else chain_search rest name

/-- `st_search` (st_hashtable.c:124): scan the bucket selected by the
hash of the name at the current capacity. -/
def st_search (st : SymbolTableHT) (name : List Nat) : Int :=
  chain_search (st.buckets.getD (hash_function name st.capacity) []) name

/-- The load-factor check of `st_add` (st_hashtable.c:105): resize when
`(float)(size + 1) / capacity > 0.75`, modelled exactly as the rational
comparison `4 * (size + 1) > 3 * capacity`. -/
def resize_if_needed (st : SymbolTableHT) : SymbolTableHT :=
  if 4 * (st.size + 1) > 3 * st.capacity then st_resize st else st

/-- `st_add` (st_hashtable.c:98): return the existing position if the
name is present; otherwise apply the load-factor check, then push a
fresh entry carrying `next_position` (at the bucket selected by the
possibly-grown capacity) and bump both counters. -/
def st_add (st : SymbolTableHT) (name : List Nat) : SymbolTableHT × Int :=
  let existing_pos := st_search st name
  if existing_pos ≠ -1 then (st, existing_pos)
  else
    let st1 := resize_if_needed st
    let position := st1.next_position
    let new_entry := create_entry name position
    ({ buckets := pushEntry st1.capacity st1.buckets new_entry
       capacity := st1.capacity
       size := st1.size + 1
       next_position := st1.next_position + 1 }, position)

/-- Run a sequence of `st_add` calls, keeping the final table. -/
def addAll (st : SymbolTableHT) (l : List (List Nat)) : SymbolTableHT :=
  l.foldl (fun s n => (st_add s n).1) st

/-- Run a sequence of `st_add` calls, collecting the returned positions. -/
def addPositions (st : SymbolTableHT) : List (List Nat) → List Int
  | [] => []
  | n :: rest =>
    let r := st_add st n
    r.2 :: addPositions r.1 rest

/-- The names currently stored in the table. -/
def names (st : SymbolTableHT) : List (List Nat) := (entries st).map HTEntry.name

/-- Well-formedness of a hash-table state.  Every clause is a physical
fact of the C representation (the bucket array really has `capacity`
slots, `size` really counts the live entries, every entry sits in the
bucket its hash selects, a name occurs at most once, and positions and
the counter are non-negative `int`s); all clauses hold for every state
reachable from `st_create` through `st_add`. -/
structure WF (st : SymbolTableHT) : Prop where
  len : st.buckets.length = st.capacity
  cap_pos : 0 < st.capacity
  size_eq : st.size = (entries st).length
  nodup : (names st).Nodup
  ok : ∀ i, ∀ e ∈ st.buckets.getD i [], hash_function e.name st.capacity = i
  pos_nonneg : ∀ e ∈ entries st, 0 ≤ e.position
  np_nonneg : 0 ≤ st.next_position

end HT

/-! ## Order lemmas for `strcmp` -/

theorem strcmp_self (a : List Nat) : strcmp a a = .eq := by
  induction a with
  | nil => rfl
  | cons x xs ih => simp [strcmp, ih]

theorem strcmp_eq_iff {a b : List Nat} : strcmp a b = .eq ↔ a = b := by
  induction a generalizing b with
  | nil => cases b <;> simp [strcmp]
  | cons x xs ih =>
    cases b with
    | nil => simp [strcmp]
    | cons y ys =>
      simp only [strcmp]
      split_ifs with h1 h2
      · simp only [List.cons.injEq]
        constructor
        · intro h; cases h
        · rintro ⟨rfl, -⟩; omega
      · simp only [List.cons.injEq]
        constructor
        · intro h; cases h
        · rintro ⟨rfl, -⟩; omega
      · have hxy : x = y := by omega
        simp [hxy, ih]

theorem strcmp_lt_iff_gt {a b : List Nat} : strcmp a b = .lt ↔ strcmp b a = .gt := by
  induction a generalizing b with
  | nil => cases b <;> simp [strcmp]
  | cons x xs ih =>
    cases b with
    | nil => simp [strcmp]
    | cons y ys =>
      simp only [strcmp]
      rcases Nat.lt_trichotomy x y with h | h | h
      · rw [if_pos h, if_neg (Nat.lt_asymm h), if_pos h]
        simp
      · subst h
        rw [if_neg (Nat.lt_irrefl x), if_neg (Nat.lt_irrefl x), if_neg (Nat.lt_irrefl x),
          if_neg (Nat.lt_irrefl x)]
        exact ih
      · rw [if_neg (Nat.lt_asymm h), if_pos h, if_pos h]
        simp

theorem strlt_trans {a b c : List Nat} (hab : strlt a b) (hbc : strlt b c) :
    strlt a c := by
  unfold strlt at *
  induction a generalizing b c with
  | nil =>
    cases c with
    | nil =>
      cases b with
      | nil => exact hbc
      | cons y ys => simp [strcmp] at hbc
    | cons z zs => simp [strcmp]
  | cons x xs ih =>
    cases b with
    | nil => simp [strcmp] at hab
    | cons y ys =>
      cases c with
      | nil => simp [strcmp] at hbc
      | cons z zs =>
        simp only [strcmp] at hab hbc ⊢
        have hxy : x < y ∨ (x = y ∧ strcmp xs ys = .lt) := by
          rcases Nat.lt_trichotomy x y with h | h | h
          · exact Or.inl h
          · refine Or.inr ⟨h, ?_⟩
            subst h
            rwa [if_neg (Nat.lt_irrefl x), if_neg (Nat.lt_irrefl x)] at hab
          · rw [if_neg (Nat.lt_asymm h), if_pos h] at hab
            cases hab
        have hyz : y < z ∨ (y = z ∧ strcmp ys zs = .lt) := by
          rcases Nat.lt_trichotomy y z with h | h | h
          · exact Or.inl h
          · refine Or.inr ⟨h, ?_⟩
            subst h
            rwa [if_neg (Nat.lt_irrefl y), if_neg (Nat.lt_irrefl y)] at hbc
          · rw [if_neg (Nat.lt_asymm h), if_pos h] at hbc
            cases hbc
        rcases hxy with h | ⟨rfl, hxs⟩
        · rcases hyz with h' | ⟨rfl, -⟩
          · rw [if_pos (Nat.lt_trans h h')]
          · rw [if_pos h]
        · rcases hyz with h' | ⟨rfl, hys⟩
          · rw [if_pos h']
          · rw [if_neg (Nat.lt_irrefl x), if_neg (Nat.lt_irrefl x)]
            exact ih hxs hys

theorem strlt_irrefl (a : List Nat) : ¬ strlt a a := by
  unfold strlt
  rw [strcmp_self]
  simp

/-! ## BST backend lemmas -/

namespace BST

theorem keys_node (n : List Nat) (p : Int) (l r : BSTNode) :
    keys (.node n p l r) = keys l ++ n :: keys r := by
  simp [keys, inorder_traversal]

theorem keys_leaf : keys .leaf = [] := rfl

theorem insert_found_mem (t : BSTNode) (name : List Nat) (pos : Int)
    (h : (insert_node t name pos).2.2 = true) : name ∈ keys t := by
  induction t with
  | leaf => simp [insert_node, create_node] at h
  | node n p l r ihl ihr =>
    rw [keys_node]
    simp only [insert_node] at h
    cases hc : strcmp name n with
    | lt =>
      rw [hc] at h
      simp only at h
      exact List.mem_append_left _ (ihl h)
    | gt =>
      rw [hc] at h
      simp only at h
      exact List.mem_append_right _ (List.mem_cons_of_mem _ (ihr h))
    | eq =>
      have : name = n := strcmp_eq_iff.mp hc
      subst this
      exact List.mem_append_right _ (List.mem_cons_self _ _)

theorem insert_not_found (t : BSTNode) (name : List Nat) (pos : Int)
    (h : (insert_node t name pos).2.2 = false) :
    (insert_node t name pos).2.1 = pos ∧
    (inorder_traversal (insert_node t name pos).1).Perm
      ((name, pos) :: inorder_traversal t) := by
  induction t with
  | leaf =>
    refine ⟨rfl, ?_⟩
    simp [insert_node, create_node, inorder_traversal]
  | node n p l r ihl ihr =>
    cases hc : strcmp name n with
    | lt =>
      simp only [insert_node, hc] at h ⊢
      obtain ⟨hpos, hperm⟩ := ihl h
      refine ⟨hpos, ?_⟩
      simp only [inorder_traversal]
      exact hperm.append_right _
    | gt =>
      simp only [insert_node, hc] at h ⊢
      obtain ⟨hpos, hperm⟩ := ihr h
      refine ⟨hpos, ?_⟩
      simp only [inorder_traversal]
      have h1 : ((n, p) :: inorder_traversal (insert_node r name pos).1).Perm
          ((name, pos) :: (n, p) :: inorder_traversal r) :=
        (hperm.cons _).trans (List.Perm.swap _ _ _)
      exact (h1.append_left _).trans List.perm_middle
    | eq =>
      simp [insert_node, hc] at h

theorem insert_found_eq (t : BSTNode) (name : List Nat) (pos : Int)
    (h : (insert_node t name pos).2.2 = true) : (insert_node t name pos).1 = t := by
  induction t with
  | leaf => simp [insert_node, create_node] at h
  | node n p l r ihl ihr =>
    cases hc : strcmp name n with
    | lt =>
      simp only [insert_node, hc] at h ⊢
      rw [ihl h]
    | gt =>
      simp only [insert_node, hc] at h ⊢
      rw [ihr h]
    | eq =>
      simp only [insert_node, hc]

theorem mem_keys_insert_iff (t : BSTNode) (name : List Nat) (pos : Int) (k : List Nat) :
    k ∈ keys (insert_node t name pos).1 ↔ k = name ∨ k ∈ keys t := by
  cases hf : (insert_node t name pos).2.2
  · have h := (insert_not_found t name pos hf).2
    have hk : (keys (insert_node t name pos).1).Perm (name :: keys t) := by
      simpa [keys] using h.map Prod.fst
    rw [hk.mem_iff, List.mem_cons]
  · rw [insert_found_eq t name pos hf]
    constructor
    · exact Or.inr
    · rintro (rfl | hk)
      · exact insert_found_mem t k pos hf
      · exact hk

theorem insert_BSTInv (t : BSTNode) (name : List Nat) (pos : Int) (h : BSTInv t) :
    BSTInv (insert_node t name pos).1 := by
  induction t with
  | leaf =>
    simp [insert_node, create_node, BSTInv, keys_leaf]
  | node n p l r ihl ihr =>
    obtain ⟨hl, hr, hil, hir⟩ := h
    simp only [insert_node]
    cases hc : strcmp name n with
    | lt =>
      simp only
      refine ⟨?_, hr, ihl hil, hir⟩
      intro k hk
      rcases (mem_keys_insert_iff l name pos k).mp hk with rfl | hk'
      · exact hc
      · exact hl k hk'
    | gt =>
      simp only
      refine ⟨hl, ?_, hil, ihr hir⟩
      intro k hk
      rcases (mem_keys_insert_iff r name pos k).mp hk with rfl | hk'
      · exact strcmp_lt_iff_gt.mpr hc
      · exact hr k hk'
    | eq =>
      exact ⟨hl, hr, hil, hir⟩

theorem search_insert (t : BSTNode) (name : List Nat) (pos : Int) :
    ∃ a b, search_node (insert_node t name pos).1 name
      = some (.node name (insert_node t name pos).2.1 a b) := by
  induction t with
  | leaf =>
    refine ⟨.leaf, .leaf, ?_⟩
    simp [insert_node, create_node, search_node, strcmp_self]
  | node n p l r ihl ihr =>
    simp only [insert_node]
    cases hc : strcmp name n with
    | lt =>
      simp only
      obtain ⟨a, b, hs⟩ := ihl
      exact ⟨a, b, by simp [search_node, hc, hs]⟩
    | gt =>
      simp only
      obtain ⟨a, b, hs⟩ := ihr
      exact ⟨a, b, by simp [search_node, hc, hs]⟩
    | eq =>
      have : name = n := strcmp_eq_iff.mp hc
      subst this
      exact ⟨l, r, by simp [search_node, strcmp_self]⟩

theorem insert_insert (t : BSTNode) (name : List Nat) (pos pos' : Int) :
    insert_node (insert_node t name pos).1 name pos'
      = ((insert_node t name pos).1, (insert_node t name pos).2.1, true) := by
  induction t with
  | leaf =>
    simp [insert_node, create_node, strcmp_self]
  | node n p l r ihl ihr =>
    simp only [insert_node]
    cases hc : strcmp name n with
    | lt => simp [insert_node, hc, ihl]
    | gt => simp [insert_node, hc, ihr]
    | eq => simp [insert_node, hc]

theorem search_none_of_not_mem (t : BSTNode) (name : List Nat)
    (hInv : BSTInv t) (h : name ∉ keys t) : search_node t name = none := by
  induction t with
  | leaf => rfl
  | node n p l r ihl ihr =>
    obtain ⟨hl, hr, hil, hir⟩ := hInv
    rw [keys_node] at h
    simp only [search_node]
    cases hc : strcmp name n with
    | lt =>
      exact ihl hil fun hk => h (List.mem_append_left _ hk)
    | gt =>
      exact ihr hir fun hk => h (List.mem_append_right _ (List.mem_cons_of_mem _ hk))
    | eq =>
      exact absurd (strcmp_eq_iff.mp hc ▸ List.mem_append_right _ (List.mem_cons_self _ _))
        h

end BST

namespace BST

theorem st_add_root (st : SymbolTableBST) (name : List Nat) :
    (st_add st name).1.root = (insert_node st.root name st.size).1 := by
  cases hf : (insert_node st.root name st.size).2.2 <;> simp [st_add, hf]

theorem st_add_val (st : SymbolTableBST) (name : List Nat) :
    (st_add st name).2 = (insert_node st.root name st.size).2.1 := by
  cases hf : (insert_node st.root name st.size).2.2 <;> simp [st_add, hf]

theorem st_add_search (st : SymbolTableBST) (name : List Nat) :
    st_search (st_add st name).1 name = (st_add st name).2 := by
  obtain ⟨a, b, hs⟩ := search_insert st.root name st.size
  rw [st_search, st_add_root, st_add_val, hs]

theorem st_add_twice (st : SymbolTableBST) (name : List Nat) :
    st_add (st_add st name).1 name = ((st_add st name).1, (st_add st name).2) := by
  cases hf : (insert_node st.root name st.size).2.2 <;>
    simp [st_add, hf, insert_insert]

theorem st_add_size_le (st : SymbolTableBST) (name : List Nat) :
    (st_add st name).1.size ≤ st.size + 1 := by
  cases hf : (insert_node st.root name st.size).2.2 <;> simp [st_add, hf]

theorem mem_keys_add_iff (st : SymbolTableBST) (name : List Nat) (k : List Nat) :
    k ∈ keys (st_add st name).1.root ↔ k = name ∨ k ∈ keys st.root := by
  rw [st_add_root]
  exact mem_keys_insert_iff _ _ _ _

/-- The reachable-state invariant of the BST table: the tree is a search
tree and `size` counts its nodes. -/
def TWF (st : SymbolTableBST) : Prop :=
  BSTInv st.root ∧ st.size = ((inorder_traversal st.root).length : Int)

theorem TWF_create : TWF st_create := by
  exact ⟨trivial, rfl⟩

theorem TWF_add (st : SymbolTableBST) (name : List Nat) (h : TWF st) :
    TWF (st_add st name).1 := by
  obtain ⟨hinv, hsize⟩ := h
  constructor
  · rw [st_add_root]
    exact insert_BSTInv _ _ _ hinv
  · rw [st_add_root]
    cases hf : (insert_node st.root name st.size).2.2
    · have hnf := insert_not_found st.root name st.size hf
      have hlen := hnf.2.length_eq
      simp only [List.length_cons] at hlen
      have : (st_add st name).1.size = st.size + 1 := by simp [st_add, hf]
      rw [this, hlen, hsize]
      push_cast
      ring
    · have heq := insert_found_eq st.root name st.size hf
      have : (st_add st name).1.size = st.size := by simp [st_add, hf]
      rw [this, heq, hsize]

theorem addAll_nil (st : SymbolTableBST) : addAll st [] = st := rfl

theorem addAll_cons (st : SymbolTableBST) (n : List Nat) (rest : List (List Nat)) :
    addAll st (n :: rest) = addAll (st_add st n).1 rest := rfl

theorem addPositions_cons (st : SymbolTableBST) (n : List Nat) (rest : List (List Nat)) :
    addPositions st (n :: rest) = (st_add st n).2 :: addPositions (st_add st n).1 rest := rfl

theorem TWF_addAll (st : SymbolTableBST) (l : List (List Nat)) (h : TWF st) :
    TWF (addAll st l) := by
  induction l generalizing st with
  | nil => exact h
  | cons n rest ih => exact ih _ (TWF_add st n h)

theorem mem_keys_addAll_iff (st : SymbolTableBST) (l : List (List Nat)) (k : List Nat) :
    k ∈ keys (addAll st l).root ↔ k ∈ l ∨ k ∈ keys st.root := by
  induction l generalizing st with
  | nil => simp [addAll]
  | cons n rest ih =>
    rw [addAll_cons, ih, mem_keys_add_iff, List.mem_cons]
    tauto

theorem st_search_eq_neg_one (st : SymbolTableBST) (name : List Nat)
    (hinv : BSTInv st.root) (h : name ∉ keys st.root) : st_search st name = -1 := by
  rw [st_search, search_none_of_not_mem st.root name hinv h]

theorem addPositions_eq (st : SymbolTableBST) (l : List (List Nat))
    (hdisj : ∀ n ∈ l, n ∉ keys st.root) (hnd : l.Nodup) :
    addPositions st l = (List.range l.length).map (fun k : Nat => st.size + (k : Int)) := by
  induction l generalizing st with
  | nil => simp [addPositions]
  | cons n rest ih =>
    have hn : n ∉ keys st.root := hdisj n (List.mem_cons_self _ _)
    have hf : (insert_node st.root n st.size).2.2 = false := by
      cases hf2 : (insert_node st.root n st.size).2.2
      · rfl
      · exact absurd (insert_found_mem st.root n st.size hf2) hn
    have hnf := insert_not_found st.root n st.size hf
    have hpos : (st_add st n).2 = st.size := by rw [st_add_val, hnf.1]
    have hsize : (st_add st n).1.size = st.size + 1 := by simp [st_add, hf]
    have hdisj' : ∀ m ∈ rest, m ∉ keys (st_add st n).1.root := by
      intro m hm
      rw [mem_keys_add_iff]
      rintro (rfl | hmem)
      · exact (List.nodup_cons.mp hnd).1 hm
      · exact hdisj m (List.mem_cons_of_mem _ hm) hmem
    rw [addPositions_cons, ih _ hdisj' (List.nodup_cons.mp hnd).2, hpos, hsize]
    rw [List.length_cons, List.range_succ_eq_map, List.map_cons, List.map_map]
    have hhead : st.size + ((0 : Nat) : Int) = st.size := by push_cast; ring
    have htail : ∀ k : Nat,
        ((fun k : Nat => st.size + (k : Int)) ∘ Nat.succ) k
          = st.size + 1 + (k : Int) := by
      intro k
      simp only [Function.comp_apply]
      push_cast
      ring
    rw [hhead, List.map_congr_left fun k _ => htail k]

theorem inorder_pairwise (t : BSTNode) (h : BSTInv t) : (keys t).Pairwise strlt := by
  induction t with
  | leaf => simp [keys_leaf]
  | node n p l r ihl ihr =>
    obtain ⟨hl, hr, hil, hir⟩ := h
    rw [keys_node, List.pairwise_append, List.pairwise_cons]
    refine ⟨ihl hil, ⟨hr, ihr hir⟩, ?_⟩
    intro a ha b hb
    rcases List.mem_cons.mp hb with rfl | hb'
    · exact hl a ha
    · exact strlt_trans (hl a ha) (hr b hb')

end BST

/-! ## Hash-table backend lemmas -/

namespace HT

theorem hash_lt (str : List Nat) (capacity : Nat) (h : 0 < capacity) :
    hash_function str capacity < capacity := Nat.mod_lt _ h

theorem getD_set_self {α : Type} (bs : List (List α)) (i : Nat) (v : List α)
    (h : i < bs.length) : (bs.set i v).getD i [] = v := by
  rw [List.getD_eq_getElem?_getD, List.getElem?_set, if_pos rfl, if_pos h]
  rfl

theorem getD_set_ne {α : Type} (bs : List (List α)) (i j : Nat) (v : List α)
    (h : i ≠ j) : (bs.set i v).getD j [] = bs.getD j [] := by
  rw [List.getD_eq_getElem?_getD, List.getElem?_set, if_neg h,
    ← List.getD_eq_getElem?_getD]

theorem getD_mem_flatten {α : Type} (bs : List (List α)) (i : Nat) (a : α)
    (h : a ∈ bs.getD i []) : a ∈ bs.flatten := by
  rw [List.getD_eq_getElem?_getD] at h
  cases hi : bs[i]? with
  | none => rw [hi] at h; cases h
  | some b =>
    rw [hi] at h
    have hb : b ∈ bs := by
      rcases List.getElem?_eq_some_iff.mp hi with ⟨hlt, hg⟩
      exact hg ▸ List.getElem_mem hlt
    exact List.mem_flatten.mpr ⟨b, hb, h⟩

theorem mem_flatten_getD {α : Type} (bs : List (List α)) (a : α) (h : a ∈ bs.flatten) :
    ∃ i, i < bs.length ∧ a ∈ bs.getD i [] := by
  obtain ⟨b, hb, hab⟩ := List.mem_flatten.mp h
  obtain ⟨i, hi, hgb⟩ := List.mem_iff_getElem.mp hb
  refine ⟨i, hi, ?_⟩
  rw [List.getD_eq_getElem?_getD, List.getElem?_eq_getElem hi, hgb]
  exact hab

theorem flatten_set_cons {α : Type} (bs : List (List α)) (i : Nat) (x : α)
    (h : i < bs.length) :
    (bs.set i (x :: bs.getD i [])).flatten.Perm (x :: bs.flatten) := by
  induction bs generalizing i with
  | nil => simp at h
  | cons b rest ih =>
    cases i with
    | zero =>
      simp only [List.getD_cons_zero, List.set_cons_zero, List.flatten_cons,
        List.cons_append]
      exact List.Perm.refl _
    | succ j =>
      simp only [List.getD_cons_succ, List.set_cons_succ, List.flatten_cons]
      have hj : j < rest.length := by simpa using h
      exact ((ih j hj).append_left b).trans List.perm_middle

theorem nodup_map_getD {α β : Type} (bs : List (List α)) (f : α → β)
    (h : (bs.flatten.map f).Nodup) (i : Nat) : ((bs.getD i []).map f).Nodup := by
  induction bs generalizing i with
  | nil => simp [List.getD]
  | cons b rest ih =>
    rw [List.flatten_cons, List.map_append] at h
    cases i with
    | zero => exact h.of_append_left
    | succ j => exact ih h.of_append_right j

theorem getD_replicate_nil {α : Type} (n i : Nat) :
    (List.replicate n ([] : List α)).getD i [] = [] := by
  rw [List.getD_eq_getElem?_getD, List.getElem?_replicate]
  split <;> rfl

theorem flatten_replicate_nil {α : Type} (n : Nat) :
    (List.replicate n ([] : List α)).flatten = [] := by
  induction n with
  | zero => rfl
  | succ m ih => rw [List.replicate_succ, List.flatten_cons, ih]; rfl

theorem chain_search_not_mem (l : List HTEntry) (name : List Nat)
    (h : ∀ e ∈ l, e.name ≠ name) : chain_search l name = -1 := by
  induction l with
  | nil => rfl
  | cons b rest ih =>
    simp only [chain_search]
    rw [if_neg fun hc => h b (List.mem_cons_self _ _) (strcmp_eq_iff.mp hc)]
    exact ih fun e he => h e (List.mem_cons_of_mem _ he)

theorem chain_search_mem (l : List HTEntry) (name : List Nat) (e : HTEntry)
    (he : e ∈ l) (hn : e.name = name) (hnd : (l.map HTEntry.name).Nodup) :
    chain_search l name = e.position := by
  induction l with
  | nil => cases he
  | cons b rest ih =>
    rw [List.map_cons, List.nodup_cons] at hnd
    rcases List.mem_cons.mp he with rfl | he'
    · simp only [chain_search]
      rw [if_pos (hn ▸ strcmp_self _)]
    · have hb : b.name ≠ name := by
        intro hbn
        exact hnd.1 (by rw [hbn, ← hn]; exact List.mem_map_of_mem HTEntry.name he')
      simp only [chain_search]
      rw [if_neg fun hc => hb (strcmp_eq_iff.mp hc)]
      exact ih he' hnd.2

theorem chain_search_found (l : List HTEntry) (name : List Nat)
    (h : chain_search l name ≠ -1) :
    ∃ e ∈ l, e.name = name ∧ e.position = chain_search l name := by
  induction l with
  | nil => exact absurd rfl h
  | cons b rest ih =>
    by_cases hb : strcmp b.name name = .eq
    · refine ⟨b, List.mem_cons_self _ _, strcmp_eq_iff.mp hb, ?_⟩
      simp only [chain_search]
      rw [if_pos hb]
    · simp only [chain_search] at h ⊢
      rw [if_neg hb] at h ⊢
      obtain ⟨e, he, hn, hp⟩ := ih h
      exact ⟨e, List.mem_cons_of_mem _ he, hn, hp⟩

theorem st_search_not_mem (st : SymbolTableHT) (name : List Nat)
    (h : name ∉ names st) : st_search st name = -1 := by
  apply chain_search_not_mem
  intro e he hen
  exact h (hen ▸ List.mem_map_of_mem HTEntry.name (getD_mem_flatten _ _ _ he))

theorem st_search_mem (st : SymbolTableHT) (name : List Nat) (e : HTEntry)
    (hwf : WF st) (he : e ∈ entries st) (hn : e.name = name) :
    st_search st name = e.position := by
  subst hn
  obtain ⟨i, hi, hgi⟩ := mem_flatten_getD st.buckets e he
  have hhash : hash_function e.name st.capacity = i := hwf.ok i e hgi
  rw [st_search, hhash]
  exact chain_search_mem _ _ e hgi rfl (nodup_map_getD _ _ hwf.nodup i)

theorem st_search_found (st : SymbolTableHT) (name : List Nat)
    (h : st_search st name ≠ -1) :
    ∃ e ∈ entries st, e.name = name ∧ e.position = st_search st name := by
  obtain ⟨e, he, hn, hp⟩ := chain_search_found _ _ h
  exact ⟨e, getD_mem_flatten _ _ _ he, hn, hp⟩

end HT

namespace HT

theorem length_pushEntry (capacity : Nat) (bs : List (List HTEntry)) (e : HTEntry) :
    (pushEntry capacity bs e).length = bs.length := by
  simp [pushEntry]

theorem flatten_pushEntry (capacity : Nat) (bs : List (List HTEntry)) (e : HTEntry)
    (h : hash_function e.name capacity < bs.length) :
    (pushEntry capacity bs e).flatten.Perm (e :: bs.flatten) :=
  flatten_set_cons bs _ e h

theorem ok_pushEntry (capacity : Nat) (bs : List (List HTEntry)) (e : HTEntry)
    (hlt : hash_function e.name capacity < bs.length)
    (h : ∀ i, ∀ x ∈ bs.getD i [], hash_function x.name capacity = i) :
    ∀ i, ∀ x ∈ (pushEntry capacity bs e).getD i [], hash_function x.name capacity = i := by
  intro i x hx
  simp only [pushEntry] at hx
  by_cases hidx : hash_function e.name capacity = i
  · rw [hidx, getD_set_self _ _ _ (hidx ▸ hlt)] at hx
    rcases List.mem_cons.mp hx with rfl | hx'
    · exact hidx
    · exact h i x hx'
  · rw [getD_set_ne _ _ _ _ hidx] at hx
    exact h i x hx

theorem length_foldl_pushEntry (capacity : Nat) (es : List HTEntry)
    (bs : List (List HTEntry)) :
    (es.foldl (pushEntry capacity) bs).length = bs.length := by
  induction es generalizing bs with
  | nil => rfl
  | cons e rest ih => rw [List.foldl_cons, ih, length_pushEntry]

theorem flatten_foldl_pushEntry (capacity : Nat) (es : List HTEntry)
    (bs : List (List HTEntry)) (hlen : bs.length = capacity) (hcap : 0 < capacity) :
    ((es.foldl (pushEntry capacity) bs).flatten).Perm (es ++ bs.flatten) := by
  induction es generalizing bs with
  | nil => exact List.Perm.refl _
  | cons e rest ih =>
    rw [List.foldl_cons]
    have h1 := ih (pushEntry capacity bs e) (by rw [length_pushEntry, hlen])
    have h2 : (pushEntry capacity bs e).flatten.Perm (e :: bs.flatten) :=
      flatten_pushEntry _ _ _ (by rw [hlen]; exact hash_lt _ _ hcap)
    exact (h1.trans (h2.append_left rest)).trans List.perm_middle

theorem ok_foldl_pushEntry (capacity : Nat) (es : List HTEntry)
    (bs : List (List HTEntry)) (hlen : bs.length = capacity) (hcap : 0 < capacity)
    (h : ∀ i, ∀ x ∈ bs.getD i [], hash_function x.name capacity = i) :
    ∀ i, ∀ x ∈ (es.foldl (pushEntry capacity) bs).getD i [],
      hash_function x.name capacity = i := by
  induction es generalizing bs with
  | nil => exact h
  | cons e rest ih =>
    rw [List.foldl_cons]
    exact ih _ (by rw [length_pushEntry, hlen])
      (ok_pushEntry _ _ _ (by rw [hlen]; exact hash_lt _ _ hcap) h)

theorem resize_capacity (st : SymbolTableHT) :
    (st_resize st).capacity = st.capacity * 2 := rfl

theorem resize_next_position (st : SymbolTableHT) :
    (st_resize st).next_position = st.next_position := rfl

theorem resize_size (st : SymbolTableHT) :
    (st_resize st).size = (entries st).length := rfl

theorem resize_buckets_length (st : SymbolTableHT) :
    (st_resize st).buckets.length = st.capacity * 2 := by
  show ((entries st).foldl (pushEntry (st.capacity * 2))
    (List.replicate (st.capacity * 2) [])).length = st.capacity * 2
  rw [length_foldl_pushEntry, List.length_replicate]

theorem resize_entries_perm (st : SymbolTableHT) (hcap : 0 < st.capacity) :
    (entries (st_resize st)).Perm (entries st) := by
  show (((entries st).foldl (pushEntry (st.capacity * 2))
    (List.replicate (st.capacity * 2) [])).flatten).Perm (entries st)
  have h := flatten_foldl_pushEntry (st.capacity * 2) (entries st)
    (List.replicate (st.capacity * 2) []) (List.length_replicate _ _)
    (by omega)
  rw [flatten_replicate_nil, List.append_nil] at h
  exact h

theorem WF_resize (st : SymbolTableHT) (h : WF st) : WF (st_resize st) := by
  have hperm := resize_entries_perm st h.cap_pos
  refine ⟨?_, ?_, ?_, ?_, ?_, ?_, ?_⟩
  · rw [resize_buckets_length, resize_capacity]
  · rw [resize_capacity]
    have := h.cap_pos
    omega
  · rw [resize_size, hperm.length_eq]
  · show ((entries (st_resize st)).map HTEntry.name).Nodup
    exact (hperm.symm.map HTEntry.name).nodup h.nodup
  · rw [resize_capacity]
    exact ok_foldl_pushEntry _ _ _ (List.length_replicate _ _) (by have := h.cap_pos; omega)
      (fun i x hx => by rw [getD_replicate_nil] at hx; cases hx)
  · intro e he
    exact h.pos_nonneg e (hperm.mem_iff.mp he)
  · rw [resize_next_position]
    exact h.np_nonneg

end HT

namespace HT

theorem entries_create : entries st_create = [] := flatten_replicate_nil _

theorem names_create : names st_create = [] := by
  rw [names, entries_create]
  rfl

theorem WF_create : WF st_create := by
  refine ⟨rfl, by decide, ?_, ?_, ?_, ?_, by decide⟩
  · rw [entries_create]
    rfl
  · rw [names_create]
    exact List.nodup_nil
  · intro i x hx
    rw [show st_create.buckets = List.replicate INITIAL_TABLE_SIZE [] from rfl,
      getD_replicate_nil] at hx
    cases hx
  · intro e he
    rw [entries_create] at he
    cases he

theorem WF_resize_if_needed (st : SymbolTableHT) (h : WF st) :
    WF (resize_if_needed st) := by
  rw [resize_if_needed]
  split
  · exact WF_resize st h
  · exact h

theorem resize_if_needed_np (st : SymbolTableHT) :
    (resize_if_needed st).next_position = st.next_position := by
  rw [resize_if_needed]
  split <;> rfl

theorem resize_if_needed_size (st : SymbolTableHT) (h : WF st) :
    (resize_if_needed st).size = st.size := by
  rw [resize_if_needed]
  split
  · rw [resize_size, ← h.size_eq]
  · rfl

theorem resize_if_needed_len (st : SymbolTableHT)
    (hlen : st.buckets.length = st.capacity) :
    (resize_if_needed st).buckets.length = (resize_if_needed st).capacity := by
  rw [resize_if_needed]
  split
  · rw [resize_buckets_length, resize_capacity]
  · exact hlen

theorem resize_if_needed_cap_pos (st : SymbolTableHT) (hcap : 0 < st.capacity) :
    0 < (resize_if_needed st).capacity := by
  rw [resize_if_needed]
  split
  · rw [resize_capacity]
    omega
  · exact hcap

theorem resize_if_needed_entries (st : SymbolTableHT) (hcap : 0 < st.capacity) :
    (entries (resize_if_needed st)).Perm (entries st) := by
  rw [resize_if_needed]
  split
  · exact resize_entries_perm st hcap
  · exact List.Perm.refl _

theorem st_add_of_found (st : SymbolTableHT) (name : List Nat)
    (h : st_search st name ≠ -1) : st_add st name = (st, st_search st name) := by
  simp [st_add, h]

theorem st_add_of_not_found (st : SymbolTableHT) (name : List Nat)
    (h : st_search st name = -1) :
    st_add st name =
      ({ buckets := pushEntry (resize_if_needed st).capacity
           (resize_if_needed st).buckets
           (create_entry name (resize_if_needed st).next_position)
         capacity := (resize_if_needed st).capacity
         size := (resize_if_needed st).size + 1
         next_position := (resize_if_needed st).next_position + 1 },
       (resize_if_needed st).next_position) := by
  simp [st_add, h]

theorem not_mem_names_of_search_eq_neg_one (st : SymbolTableHT) (name : List Nat)
    (hwf : WF st) (h : st_search st name = -1) : name ∉ names st := by
  intro hmem
  obtain ⟨e, he, hen⟩ := List.mem_map.mp hmem
  have hs := st_search_mem st name e hwf he hen
  have hpos := hwf.pos_nonneg e he
  rw [h] at hs
  omega

theorem mem_names_of_search_ne_neg_one (st : SymbolTableHT) (name : List Nat)
    (h : st_search st name ≠ -1) : name ∈ names st := by
  obtain ⟨e, he, hen, -⟩ := st_search_found st name h
  exact hen ▸ List.mem_map_of_mem HTEntry.name he

theorem st_add_entries_not_found (st : SymbolTableHT) (name : List Nat)
    (hwf : WF st) (h : st_search st name = -1) :
    (entries (st_add st name).1).Perm
      (create_entry name (resize_if_needed st).next_position
        :: entries (resize_if_needed st)) := by
  rw [st_add_of_not_found st name h]
  have hwf1 := WF_resize_if_needed st hwf
  exact flatten_pushEntry _ _ _ (by rw [hwf1.len]; exact hash_lt _ _ hwf1.cap_pos)

theorem WF_add (st : SymbolTableHT) (name : List Nat) (h : WF st) :
    WF (st_add st name).1 := by
  by_cases hf : st_search st name = -1
  · have hwf1 := WF_resize_if_needed st h
    have hname : name ∉ names st := not_mem_names_of_search_eq_neg_one st name h hf
    have hname1 : name ∉ names (resize_if_needed st) := by
      intro hmem
      exact hname
        (((resize_if_needed_entries st h.cap_pos).map HTEntry.name).mem_iff.mp hmem)
    have hperm := st_add_entries_not_found st name h hf
    rw [st_add_of_not_found st name hf]
    rw [st_add_of_not_found st name hf] at hperm
    refine ⟨?_, hwf1.cap_pos, ?_, ?_, ?_, ?_, ?_⟩
    · show (pushEntry _ _ _).length = _
      rw [length_pushEntry, hwf1.len]
    · show (resize_if_needed st).size + 1 = _
      rw [hperm.length_eq, List.length_cons, hwf1.size_eq]
    · show ((entries _).map HTEntry.name).Nodup
      refine ((hperm.map HTEntry.name).symm).nodup ?_
      rw [List.map_cons, List.nodup_cons]
      exact ⟨hname1, hwf1.nodup⟩
    · show ∀ i, ∀ e ∈ (pushEntry _ _ _).getD i [], _
      exact ok_pushEntry _ _ _ (by rw [hwf1.len]; exact hash_lt _ _ hwf1.cap_pos) hwf1.ok
    · intro e he
      rcases List.mem_cons.mp (hperm.mem_iff.mp he) with rfl | he'
      · exact hwf1.np_nonneg
      · exact hwf1.pos_nonneg e he'
    · show (resize_if_needed st).next_position + 1 ≥ 0
      have := hwf1.np_nonneg
      omega
  · rw [st_add_of_found st name hf]
    exact h

theorem st_add_names_iff (st : SymbolTableHT) (name : List Nat) (h : WF st)
    (m : List Nat) : m ∈ names (st_add st name).1 ↔ m = name ∨ m ∈ names st := by
  by_cases hf : st_search st name = -1
  · have hperm := (st_add_entries_not_found st name h hf).map HTEntry.name
    rw [names, hperm.mem_iff, List.map_cons, List.mem_cons]
    have hperm2 := ((resize_if_needed_entries st h.cap_pos).map HTEntry.name).mem_iff
      (a := m)
    rw [show (create_entry name (resize_if_needed st).next_position).name = name
      from rfl]
    rw [show (entries (resize_if_needed st)).map HTEntry.name
      = names (resize_if_needed st) from rfl] at hperm2 ⊢
    rw [hperm2]
    rfl
  · rw [st_add_of_found st name hf]
    have : name ∈ names st := mem_names_of_search_ne_neg_one st name hf
    constructor
    · exact Or.inr
    · rintro (rfl | hm)
      · exact this
      · exact hm

end HT

namespace HT

theorem ht_roundtrip (st : SymbolTableHT) (name : List Nat)
    (hlen : st.buckets.length = st.capacity) (hcap : 0 < st.capacity) :
    st_search (st_add st name).1 name = (st_add st name).2 := by
  by_cases hf : st_search st name = -1
  · rw [st_add_of_not_found st name hf]
    have hlen1 := resize_if_needed_len st hlen
    have hcap1 := resize_if_needed_cap_pos st hcap
    show chain_search ((pushEntry (resize_if_needed st).capacity
      (resize_if_needed st).buckets
      (create_entry name (resize_if_needed st).next_position)).getD
        (hash_function name (resize_if_needed st).capacity) []) name = _
    simp only [pushEntry, create_entry]
    rw [getD_set_self _ _ _ (by rw [hlen1]; exact hash_lt _ _ hcap1)]
    simp only [chain_search]
    rw [if_pos (strcmp_self name)]
  · rw [st_add_of_found st name hf]

theorem ht_add_twice (st : SymbolTableHT) (name : List Nat) (hwf : WF st) :
    st_add (st_add st name).1 name = ((st_add st name).1, (st_add st name).2) := by
  have hr : st_search (st_add st name).1 name = (st_add st name).2 :=
    ht_roundtrip st name hwf.len hwf.cap_pos
  have hpos : (st_add st name).2 ≠ -1 := by
    by_cases hf : st_search st name = -1
    · rw [st_add_of_not_found st name hf]
      have h1 := (WF_resize_if_needed st hwf).np_nonneg
      simp only
      omega
    · rw [st_add_of_found st name hf]
      exact hf
  rw [st_add_of_found _ name (hr ▸ hpos), hr]

theorem ht_add_size_le (st : SymbolTableHT) (name : List Nat) (hwf : WF st) :
    (st_add st name).1.size ≤ st.size + 1 := by
  by_cases hf : st_search st name = -1
  · rw [st_add_of_not_found st name hf]
    show (resize_if_needed st).size + 1 ≤ st.size + 1
    rw [resize_if_needed_size st hwf]
  · rw [st_add_of_found st name hf]
    show st.size ≤ st.size + 1
    omega

theorem ht_addPositions_cons (st : SymbolTableHT) (n : List Nat)
    (rest : List (List Nat)) :
    addPositions st (n :: rest) = (st_add st n).2 :: addPositions (st_add st n).1 rest :=
  rfl

theorem ht_addAll_nil (st : SymbolTableHT) : addAll st [] = st := rfl

theorem ht_addAll_cons (st : SymbolTableHT) (n : List Nat) (rest : List (List Nat)) :
    addAll st (n :: rest) = addAll (st_add st n).1 rest := rfl

theorem WF_addAll (st : SymbolTableHT) (l : List (List Nat)) (h : WF st) :
    WF (addAll st l) := by
  induction l generalizing st with
  | nil => exact h
  | cons n rest ih => exact ih _ (WF_add st n h)

theorem mem_names_addAll_iff (st : SymbolTableHT) (l : List (List Nat)) (h : WF st)
    (m : List Nat) : m ∈ names (addAll st l) ↔ m ∈ l ∨ m ∈ names st := by
  induction l generalizing st with
  | nil => simp [addAll]
  | cons n rest ih =>
    rw [ht_addAll_cons, ih _ (WF_add st n h), st_add_names_iff st n h, List.mem_cons]
    tauto

theorem ht_addPositions_eq (st : SymbolTableHT) (l : List (List Nat)) (hwf : WF st)
    (hdisj : ∀ n ∈ l, n ∉ names st) (hnd : l.Nodup) :
    addPositions st l
      = (List.range l.length).map (fun k : Nat => st.next_position + (k : Int)) := by
  induction l generalizing st with
  | nil => simp [addPositions]
  | cons n rest ih =>
    have hn : n ∉ names st := hdisj n (List.mem_cons_self _ _)
    have hf : st_search st n = -1 := st_search_not_mem st n hn
    have hpos : (st_add st n).2 = st.next_position := by
      rw [st_add_of_not_found st n hf]
      exact resize_if_needed_np st
    have hnp : (st_add st n).1.next_position = st.next_position + 1 := by
      rw [st_add_of_not_found st n hf]
      show (resize_if_needed st).next_position + 1 = _
      rw [resize_if_needed_np st]
    have hdisj' : ∀ m ∈ rest, m ∉ names (st_add st n).1 := by
      intro m hm
      rw [st_add_names_iff st n hwf]
      rintro (rfl | hmem)
      · exact (List.nodup_cons.mp hnd).1 hm
      · exact hdisj m (List.mem_cons_of_mem _ hm) hmem
    rw [ht_addPositions_cons,
      ih _ (WF_add st n hwf) hdisj' (List.nodup_cons.mp hnd).2, hpos, hnp]
    rw [List.length_cons, List.range_succ_eq_map, List.map_cons, List.map_map]
    have hhead : st.next_position + ((0 : Nat) : Int) = st.next_position := by
      push_cast
      ring
    have htail : ∀ k : Nat,
        ((fun k : Nat => st.next_position + (k : Int)) ∘ Nat.succ) k
          = st.next_position + 1 + (k : Int) := by
      intro k
      simp only [Function.comp_apply]
      push_cast
      ring
    rw [hhead, List.map_congr_left fun k _ => htail k]

/-- The full reachability invariant of the hash backend: well-formed,
load factor at most 0.75, capacity in the doubling sequence from 10. -/
def RInv (st : SymbolTableHT) : Prop :=
  WF st ∧ 4 * st.size ≤ 3 * st.capacity ∧
    ∃ k, st.capacity = INITIAL_TABLE_SIZE * 2 ^ k

theorem RInv_create : RInv st_create :=
  ⟨WF_create, by decide, 0, by decide⟩

theorem RInv_add (st : SymbolTableHT) (name : List Nat) (h : RInv st) :
    RInv (st_add st name).1 := by
  obtain ⟨hwf, hload, k, hcap⟩ := h
  have hcap10 : 10 ≤ st.capacity := by
    rw [hcap]
    have : 1 ≤ 2 ^ k := Nat.one_le_two_pow
    show 10 ≤ 10 * 2 ^ k
    omega
  refine ⟨WF_add st name hwf, ?_, ?_⟩
  · by_cases hf : st_search st name = -1
    · rw [st_add_of_not_found st name hf]
      show 4 * ((resize_if_needed st).size + 1) ≤ 3 * (resize_if_needed st).capacity
      rw [resize_if_needed_size st hwf, resize_if_needed]
      split
      · rw [resize_capacity]
        omega
      · omega
    · rw [st_add_of_found st name hf]
      exact hload
  · by_cases hf : st_search st name = -1
    · rw [st_add_of_not_found st name hf]
      show ∃ m, (resize_if_needed st).capacity = INITIAL_TABLE_SIZE * 2 ^ m
      rw [resize_if_needed]
      split
      · refine ⟨k + 1, ?_⟩
        rw [resize_capacity, hcap, pow_succ]
        ring
      · exact ⟨k, hcap⟩
    · rw [st_add_of_found st name hf]
      exact ⟨k, hcap⟩

theorem RInv_addAll (st : SymbolTableHT) (l : List (List Nat)) (h : RInv st) :
    RInv (addAll st l) := by
  induction l generalizing st with
  | nil => exact h
  | cons n rest ih => exact ih _ (RInv_add st n h)

theorem ht_resize_search_preserved (st : SymbolTableHT) (name : List Nat)
    (hwf : WF st) (h : st_search st name ≠ -1) :
    st_search (st_resize st) name = st_search st name := by
  obtain ⟨e, he, hn, hp⟩ := st_search_found st name h
  have he2 : e ∈ entries (st_resize st) :=
    (resize_entries_perm st hwf.cap_pos).mem_iff.mpr he
  rw [st_search_mem (st_resize st) name e (WF_resize st hwf) he2 hn, hp]

end HT

namespace HT

/-- The hash update exactly as the specification words it: seed 5381,
then `hash = hash * 33 + c` per byte in wrapping unsigned arithmetic,
reduced modulo the capacity at the end.  Stated separately from
`hash_function` (which mirrors the source's shift-and-add form) so the
two can be proved equal. -/
def djb2_spec (str : List Nat) (capacity : Nat) : Nat :=
  (str.foldl (fun hash c => (hash * 33 + c) % UL_MOD) 5381) % capacity

theorem hash_step_eq (hash c : Nat) :
    (((hash <<< 5) % UL_MOD + hash) % UL_MOD + c) % UL_MOD
      = (hash * 33 + c) % UL_MOD := by
  rw [Nat.shiftLeft_eq]
  have h1 : (hash * 2 ^ 5 % UL_MOD + hash) % UL_MOD + c
      ≡ hash * 2 ^ 5 + hash + c [MOD UL_MOD] :=
    Nat.ModEq.add_right c
      ((Nat.mod_modEq _ _).trans ((Nat.mod_modEq _ _).add_right hash))
  have h2 : hash * 2 ^ 5 + hash + c = hash * 33 + c := by ring
  exact h2 ▸ h1

theorem hash_eq_djb2 (str : List Nat) (capacity : Nat) :
    hash_function str capacity = djb2_spec str capacity := by
  rw [hash_function, djb2_spec]
  have hstep : (fun hash c : Nat =>
        (((hash <<< 5) % UL_MOD + hash) % UL_MOD + c) % UL_MOD)
      = fun hash c : Nat => (hash * 33 + c) % UL_MOD := by
    funext hash c
    exact hash_step_eq hash c
  rw [hstep]

end HT

/-! ## The claims -/

/-- C1: for every sequence of `add` calls with pairwise distinct names on
a freshly created table, the positions returned by `add` are 0, 1, 2, ...
in call order, in both the BST and the hash backend. -/
theorem add_positions_are_insertion_order (l : List (List Nat)) (hnd : l.Nodup) :
    BST.addPositions BST.st_create l
        = (List.range l.length).map (fun k : Nat => (k : Int)) ∧
    HT.addPositions HT.st_create l
        = (List.range l.length).map (fun k : Nat => (k : Int)) := by
  constructor
  · have hd : ∀ n ∈ l, n ∉ BST.keys BST.st_create.root := by
      intro n hn hk
      simp [BST.keys, BST.st_create, BST.inorder_traversal] at hk
    rw [BST.addPositions_eq BST.st_create l hd hnd]
    apply List.map_congr_left
    intro k hk
    show (0 : Int) + (k : Int) = (k : Int)
    ring
  · have hd : ∀ n ∈ l, n ∉ HT.names HT.st_create := by
      intro n hn hk
      rw [HT.names_create] at hk
      cases hk
    rw [HT.ht_addPositions_eq HT.st_create l HT.WF_create hd hnd]
    apply List.map_congr_left
    intro k hk
    show (0 : Int) + (k : Int) = (k : Int)
    ring

theorem add_positions_are_insertion_order_witness :
    ([[97], [98], [99]] : List (List Nat)).Nodup ∧
    (BST.addPositions BST.st_create [[97], [98], [99]]
        = (List.range 3).map (fun k : Nat => (k : Int)) ∧
      HT.addPositions HT.st_create [[97], [98], [99]]
        = (List.range 3).map (fun k : Nat => (k : Int))) :=
  ⟨by decide, add_positions_are_insertion_order [[97], [98], [99]] (by decide)⟩

/-- C2: if `add` returns position `p` then an immediately following
`st_search` for the same name returns exactly `p`, in both backends; for
the hash backend the table's bucket array must really have `capacity`
slots (a physical fact of every C table). -/
theorem add_search_roundtrip (tB : BST.SymbolTableBST) (tH : HT.SymbolTableHT)
    (name : List Nat) (hlen : tH.buckets.length = tH.capacity)
    (hcap : 0 < tH.capacity) :
    BST.st_search (BST.st_add tB name).1 name = (BST.st_add tB name).2 ∧
    HT.st_search (HT.st_add tH name).1 name = (HT.st_add tH name).2 :=
  ⟨BST.st_add_search tB name, HT.ht_roundtrip tH name hlen hcap⟩

theorem add_search_roundtrip_witness :
    BST.st_search (BST.st_add BST.st_create [97]).1 [97]
        = (BST.st_add BST.st_create [97]).2 ∧
    HT.st_search (HT.st_add HT.st_create [97]).1 [97]
        = (HT.st_add HT.st_create [97]).2 :=
  add_search_roundtrip BST.st_create HT.st_create [97] (by decide) (by decide)

/-- C3: calling `add` twice with the same name returns the same position
both times and the second call changes nothing (same table state, hence
no size change and no position-counter consumption); size grows by at
most 1 per `add`, in both backends. -/
theorem add_idempotent (tB : BST.SymbolTableBST) (tH : HT.SymbolTableHT)
    (name : List Nat) (hwf : HT.WF tH) :
    (BST.st_add (BST.st_add tB name).1 name
        = ((BST.st_add tB name).1, (BST.st_add tB name).2) ∧
      (BST.st_add tB name).1.size ≤ tB.size + 1) ∧
    (HT.st_add (HT.st_add tH name).1 name
        = ((HT.st_add tH name).1, (HT.st_add tH name).2) ∧
      (HT.st_add tH name).1.size ≤ tH.size + 1) :=
  ⟨⟨BST.st_add_twice tB name, BST.st_add_size_le tB name⟩,
   ⟨HT.ht_add_twice tH name hwf, HT.ht_add_size_le tH name hwf⟩⟩

theorem add_idempotent_witness :
    (BST.st_add (BST.st_add BST.st_create [97]).1 [97]
        = ((BST.st_add BST.st_create [97]).1, (BST.st_add BST.st_create [97]).2) ∧
      (BST.st_add BST.st_create [97]).1.size ≤ BST.st_create.size + 1) ∧
    (HT.st_add (HT.st_add HT.st_create [97]).1 [97]
        = ((HT.st_add HT.st_create [97]).1, (HT.st_add HT.st_create [97]).2) ∧
      (HT.st_add HT.st_create [97]).1.size ≤ HT.st_create.size + 1) :=
  add_idempotent BST.st_create HT.st_create [97] HT.WF_create

/-- C4: on a well-formed hash table, `st_resize` keeps exactly the same
entries (same names, same positions, none lost, none duplicated — the
entry lists before and after are permutations), the size recomputed
during rehashing equals the pre-resize size, and every name present
before the resize is found afterwards at the identical position. -/
theorem resize_preserves_entries_and_search (st : HT.SymbolTableHT)
    (h : HT.WF st) :
    (HT.entries (HT.st_resize st)).Perm (HT.entries st) ∧
    (HT.st_resize st).size = st.size ∧
    ∀ name, HT.st_search st name ≠ -1 →
      HT.st_search (HT.st_resize st) name = HT.st_search st name :=
  ⟨HT.resize_entries_perm st h.cap_pos,
   by rw [HT.resize_size, ← h.size_eq],
   fun name hn => HT.ht_resize_search_preserved st name h hn⟩

theorem resize_preserves_entries_and_search_witness :
    (HT.entries (HT.st_resize (HT.st_add HT.st_create [97]).1)).Perm
        (HT.entries (HT.st_add HT.st_create [97]).1) ∧
    (HT.st_resize (HT.st_add HT.st_create [97]).1).size
        = (HT.st_add HT.st_create [97]).1.size ∧
    ∀ name, HT.st_search (HT.st_add HT.st_create [97]).1 name ≠ -1 →
      HT.st_search (HT.st_resize (HT.st_add HT.st_create [97]).1) name
        = HT.st_search (HT.st_add HT.st_create [97]).1 name :=
  resize_preserves_entries_and_search (HT.st_add HT.st_create [97]).1
    (HT.WF_add HT.st_create [97] HT.WF_create)

/-- C5: in the hash backend, after every sequence of `add` calls on a
fresh table the load factor is at most 0.75, i.e.
`4 * size ≤ 3 * capacity`. -/
theorem load_factor_invariant_holds (l : List (List Nat)) :
    4 * (HT.addAll HT.st_create l).size ≤ 3 * (HT.addAll HT.st_create l).capacity :=
  (HT.RInv_addAll HT.st_create l HT.RInv_create).2.1

/-- Nine pairwise distinct single-byte names for the resize scenario. -/
def scenario_names : List (List Nat) :=
  [[97], [98], [99], [100], [101], [102], [103], [104], [105]]

/-- C6: in the hash backend starting fresh (capacity 10), the load check
`(size + 1) / capacity > 0.75` runs before the candidate insert, so
adding 9 distinct names triggers exactly one resize — the capacity is
still 10 after the first 7 adds, becomes 20 at the 8th add and stays 20
at the 9th — and afterwards all 9 names are searchable at their original
positions 0..8. -/
theorem resize_trigger_scenario :
    ((List.range 10).map fun k =>
        (HT.addAll HT.st_create (scenario_names.take k)).capacity)
      = [10, 10, 10, 10, 10, 10, 10, 10, 20, 20] ∧
    HT.addPositions HT.st_create scenario_names = [0, 1, 2, 3, 4, 5, 6, 7, 8] ∧
    scenario_names.map (HT.st_search (HT.addAll HT.st_create scenario_names))
      = [0, 1, 2, 3, 4, 5, 6, 7, 8] := by
  decide

/-- C7: every table reachable by `st_add` calls on a fresh BST table
satisfies the binary-search-tree ordering invariant, and its in-order
traversal lists the names in strictly ascending `strcmp` order. -/
theorem bst_inorder_strictly_ascending (l : List (List Nat)) :
    BST.BSTInv (BST.addAll BST.st_create l).root ∧
    ((BST.inorder_traversal (BST.addAll BST.st_create l).root).map
        Prod.fst).Pairwise strlt := by
  have h := BST.TWF_addAll BST.st_create l BST.TWF_create
  exact ⟨h.1, BST.inorder_pairwise _ h.1⟩

/-- C8: for every byte string and positive capacity, `hash_function`
computes the djb2 variant — accumulator 5381, then `hash * 33 + c` per
byte with 64-bit unsigned wrapping — reduced modulo the capacity, and
the result is a valid bucket index (strictly below the capacity). -/
theorem hash_function_is_djb2 (str : List Nat) (capacity : Nat)
    (h : 0 < capacity) :
    HT.hash_function str capacity = HT.djb2_spec str capacity ∧
    HT.hash_function str capacity < capacity :=
  ⟨HT.hash_eq_djb2 str capacity, HT.hash_lt str capacity h⟩

theorem hash_function_is_djb2_witness :
    HT.hash_function [104, 105] 10 = HT.djb2_spec [104, 105] 10 ∧
    HT.hash_function [104, 105] 10 < 10 :=
  hash_function_is_djb2 [104, 105] 10 (by decide)

/-- C9: searching for a name never added to a table built by any
sequence of `add` calls on a fresh table returns the -1 sentinel, in
both backends. -/
theorem search_never_added_returns_not_found (l : List (List Nat))
    (name : List Nat) (h : name ∉ l) :
    BST.st_search (BST.addAll BST.st_create l) name = -1 ∧
    HT.st_search (HT.addAll HT.st_create l) name = -1 := by
  constructor
  · have htwf := BST.TWF_addAll BST.st_create l BST.TWF_create
    apply BST.st_search_eq_neg_one _ _ htwf.1
    rw [BST.mem_keys_addAll_iff]
    rintro (hmem | hmem)
    · exact h hmem
    · simp [BST.keys, BST.st_create, BST.inorder_traversal] at hmem
  · apply HT.st_search_not_mem
    rw [HT.mem_names_addAll_iff _ _ HT.WF_create]
    rintro (hmem | hmem)
    · exact h hmem
    · rw [HT.names_create] at hmem
      cases hmem

theorem search_never_added_returns_not_found_witness :
    BST.st_search (BST.addAll BST.st_create [[97]]) [98] = -1 ∧
    HT.st_search (HT.addAll HT.st_create [[97]]) [98] = -1 :=
  search_never_added_returns_not_found [[97]] [98] (by decide)

/-- C10: on every reachable hash table the capacity is positive and lies
in the doubling sequence from 10, the bucket array has exactly
`capacity` slots, and the hash of any name is a strict lower bound of
the array length — so the bucket accesses of `st_add`, `st_search` and
`st_resize` (which indexes both the old array, of length `capacity`, and
the new one, of length `2 * capacity`, by hashes at the matching
capacity) stay in bounds. -/
theorem bucket_accesses_in_bounds (l : List (List Nat)) :
    0 < (HT.addAll HT.st_create l).capacity ∧
    (∃ k, (HT.addAll HT.st_create l).capacity = 10 * 2 ^ k) ∧
    (HT.addAll HT.st_create l).buckets.length = (HT.addAll HT.st_create l).capacity ∧
    (∀ name, HT.hash_function name (HT.addAll HT.st_create l).capacity
        < (HT.addAll HT.st_create l).buckets.length) ∧
    (∀ name, HT.hash_function name (2 * (HT.addAll HT.st_create l).capacity)
        < 2 * (HT.addAll HT.st_create l).capacity) := by
  obtain ⟨hwf, hload, k, hcap⟩ := HT.RInv_addAll HT.st_create l HT.RInv_create
  refine ⟨hwf.cap_pos, ⟨k, hcap⟩, hwf.len, ?_, ?_⟩
  · intro name
    rw [hwf.len]
    exact HT.hash_lt _ _ hwf.cap_pos
  · intro name
    apply HT.hash_lt
    have := hwf.cap_pos
    omega
